import Mathlib

/-!
Verification of the KnowLabel ingredient-analysis core (`ch_in_final.py`).

The Python source is shallowly embedded here:
* Python strings become `List Char` (`Str`), so `str.lower`, `str.strip`,
  `str.split`, `str.replace` and `in` (substring) become explicit list
  functions;
* Python `dict` (insertion-ordered, position-preserving update on existing
  keys, unique keys) becomes an association list `List (Str × _)` with the
  operations `dictGet?`, `dictMem`, `dictInsert`;
* the Ollama model service is an external collaborator: for
  `analyze_ingredients` it is modelled as a call-indexed answer function
  `Nat → Str → Str` (the index counts successive oracle invocations, so a
  non-deterministic or stateful service is representable); for `ask_ollama`
  itself the HTTP layer's outcome is modelled by `RequestResult`, with the
  JSON lines of a successful body abstracted to `Chunk`s (a line either is
  blank, fails `json.loads`, or parses to a record with an optional
  `response` field — JSON parsing itself is outside the embedding).
-/

/-- A Python string, embedded as its list of characters. -/
abbrev Str := List Char

/-- Python `str.lower()` (ASCII case folding suffices for this code base). -/
def lower (s : Str) : Str := s.map Char.toLower

/-- Python `str.strip()`: drop whitespace from both ends. -/
def trim (s : Str) : Str :=
  ((s.dropWhile Char.isWhitespace).reverse.dropWhile Char.isWhitespace).reverse

/-- Python `str.split(sep)` for a single-character separator: adjacent
separators produce empty pieces and `"".split(sep) = [""]`. -/
def splitOnChar (sep : Char) : Str → List Str
  | [] => [[]]
  | c :: cs =>
    match splitOnChar sep cs with
    | [] => [[c]]
    | t :: ts => if c = sep then [] :: t :: ts else (c :: t) :: ts

/-- Splitting at every character satisfying a predicate; used only to state
the specification's tokenization rule in a second, independent form. -/
def splitPred (p : Char → Bool) : Str → List Str
  | [] => [[]]
  | c :: cs =>
    match splitPred p cs with
    | [] => [[c]]
    | t :: ts => if p c then [] :: t :: ts else (c :: t) :: ts

/-- The character substitution performed by `input_text.replace("\n", ",")`. -/
def newlineToComma (c : Char) : Char := if c = '\n' then ',' else c

/-- Line 79 of `ch_in_final.py`:
`[item.strip() for item in input_text.replace("\n", ",").split(",") if item.strip()]`. -/
def tokenize (input_text : Str) : List Str :=
  ((splitOnChar ',' (input_text.map newlineToComma)).map trim).filter
    (fun t => !t.isEmpty)

/-- The record value stored for one ingredient: Python dict
`{"beneficial": b, "description": d, "alternatives": a}` where `b` is
`True`, `False` or `None` (here `some true`, `some false`, `none`). -/
structure IngredientRecord where
  beneficial : Option Bool
  description : Str
  alternatives : List Str
  deriving DecidableEq

/-- A Python `dict` from ingredient name to record, as an insertion-ordered
association list with unique keys. -/
abbrev KB := List (Str × IngredientRecord)

/-- Python `k in d`. -/
def dictMem (d : KB) (k : Str) : Bool := d.any (fun p => p.1 == k)

/-- Python `d[k]` (as an `Option`, `none` standing for `KeyError`). -/
def dictGet? (d : KB) (k : Str) : Option IngredientRecord :=
  (d.find? (fun p => p.1 == k)).map Prod.snd

/-- Python `d[k] = v`: replaces the value at an existing key in place
(keeping its insertion position), otherwise appends at the end. -/
def dictInsert : KB → Str → IngredientRecord → KB
  | [], k, v => [(k, v)]
  | p :: rest, k, v =>
    if p.1 == k then (k, v) :: rest else p :: dictInsert rest k v

/-- One row of the CSV data source, columns
`ingredient, beneficial, description, alternatives`, each a raw string. -/
structure CsvRow where
  ingredient : Str
  beneficial : Str
  description : Str
  alternatives : Str
  deriving DecidableEq

/-- The record built from one CSV row (lines 54–62 of `ch_in_final.py`):
`beneficial` is the boolean test `row["beneficial"].strip().lower() == "true"`,
`description` is stripped, and `alternatives` is split on `";"`, each entry
stripped, empty entries discarded (empty field, which is falsy, gives `[]`). -/
def rowRecord (row : CsvRow) : IngredientRecord :=
  { beneficial := some (lower (trim row.beneficial) == "true".toList)
  , description := trim row.description
  , alternatives :=
      if row.alternatives.isEmpty then []
      else ((splitOnChar ';' row.alternatives).map trim).filter
        (fun a => !a.isEmpty) }

/-- `load_ingredients`: folds the CSV rows into a dict keyed by
`row["ingredient"].strip().lower()`. -/
def load_ingredients (rows : List CsvRow) : KB :=
  rows.foldl
    (fun db row => dictInsert db (lower (trim row.ingredient)) (rowRecord row))
    []

/-- The prompt built at line 88:
`f"What can you tell me about the ingredient '{ingredient}' in cosmetics or skincare?"`. -/
def mkPrompt (ingredient : Str) : Str :=
  "What can you tell me about the ingredient ".toList ++ ['\''] ++ ingredient
    ++ ['\''] ++ " in cosmetics or skincare?".toList

/-- The record built on the fallback path (lines 90–94): `beneficial = None`,
`description` = the oracle's answer (or error string), `alternatives = []`. -/
def fallbackRecord (answer : Str) : IngredientRecord :=
  { beneficial := none, description := answer, alternatives := [] }

/-- The loop of `analyze_ingredients` (lines 82–94), processing the candidate
list left to right while threading the result dict and the number of oracle
calls made so far (the oracle is a call-indexed answer function). -/
def analyzeGo (oracle : Nat → Str → Str) (db : KB) :
    List Str → KB → Nat → KB × Nat
  | [], results, n => (results, n)
  | ing :: rest, results, n =>
    match dictGet? db (lower ing) with
    | some r => analyzeGo oracle db rest (dictInsert results ing r) n
    | none =>
        analyzeGo oracle db rest
          (dictInsert results ing
            (fallbackRecord (oracle n (mkPrompt ing)))) (n + 1)

/-- `analyze_ingredients(input_text, ingredients_db)`: tokenize, then run the
loop starting from an empty result dict and oracle call number `0`. -/
def analyze_ingredients (oracle : Nat → Str → Str) (input_text : Str)
    (db : KB) : KB :=
  (analyzeGo oracle db (tokenize input_text) [] 0).1

/-- Number of candidates of `cs` that miss the knowledge base, i.e. the
number of oracle calls that processing `cs` performs. -/
def missCount (db : KB) (cs : List Str) : Nat :=
  (cs.filter (fun c => (dictGet? db (lower c)).isNone)).length

/-- Python `str.title()`: a cased character is upper-cased after a
non-alphabetic character and lower-cased after an alphabetic one. -/
def titleAux : Bool → Str → Str
  | _, [] => []
  | prevAlpha, c :: cs =>
    (if prevAlpha then c.toLower else c.toUpper) :: titleAux c.isAlpha cs

/-- Python `s.title()`. -/
def title (s : Str) : Str := titleAux false s

/-- The markdown answer `chatbot_answer` renders for a matched ingredient
(lines 109–117).  Note `if info["beneficial"]` is a truthiness test, so only
`some true` selects the beneficial badge. -/
def formatAnswer (k : Str) (info : IngredientRecord) : Str :=
  "**".toList ++ title k ++ "**\n\n".toList ++
  (match info.beneficial with
   | some true => "✅ This ingredient is *beneficial*.\n".toList
   | _ => "⚠ This ingredient may be *harmful or controversial*.\n".toList) ++
  "**Description:** ".toList ++ info.description ++ "\n".toList ++
  (if info.alternatives.isEmpty then []
   else "**Alternatives:** ".toList
     ++ List.intercalate ", ".toList info.alternatives ++ "\n".toList)

/-- Python `needle in hay` on strings: contiguous substring containment
(the empty string is contained in everything). -/
def isSubstring (needle : Str) : Str → Bool
  | [] => needle.isEmpty
  | c :: cs => needle.isPrefixOf (c :: cs) || isSubstring needle cs

/-- `chatbot_answer(user_input, ingredients_db)` (lines 99–120): scan the
dict entries in stored order for the first whose key is a substring of the
lower-cased question; render that entry, otherwise forward the raw question
to the oracle.  (The Python loop iterates `keys()` and then indexes the
dict; since a dict's keys are unique, the first matching key together with
its value is exactly the first matching entry.) -/
def chatbot_answer (oracle : Str → Str) (user_input : Str) (db : KB) : Str :=
  match db.find? (fun p => isSubstring p.1 (lower user_input)) with
  | some p => formatAnswer p.1 p.2
  | none => oracle user_input

/-- One line of a successful response body, after stripping: blank (skipped
at line 24), not valid JSON (`json.JSONDecodeError`, skipped at line 29), or
parsed to a record whose `response` field may be absent. -/
inductive Chunk where
  | blank
  | malformed
  | parsed (resp : Option Str)
  deriving DecidableEq

/-- The exceptions `requests.post` can raise, as far as `ask_ollama`
distinguishes them.  In the `requests` library,
`ConnectTimeout(ConnectionError, Timeout)` is a subclass of
`ConnectionError`, while `ReadTimeout(Timeout)` is not; so
`except requests.exceptions.ConnectionError` (line 36) catches a
connection-phase timeout but a read timeout falls through to
`except Exception` (line 38). -/
inductive PyExn where
  | connectionError (m : Str)
  | connectTimeout (m : Str)
  | readTimeout (m : Str)
  | otherExc (m : Str)
  deriving DecidableEq

/-- Whether the exception is caught by
`except requests.exceptions.ConnectionError`. -/
def PyExn.isConnectionError : PyExn → Bool
  | .connectionError _ => true
  | .connectTimeout _ => true
  | _ => false

/-- The rendered text `f"{e}"` of the exception. -/
def PyExn.text : PyExn → Str
  | .connectionError m => m
  | .connectTimeout m => m
  | .readTimeout m => m
  | .otherExc m => m

/-- Outcome of `requests.post` at line 12: either a response (status code,
the body's stripped lines as `Chunk`s, and the raw body text used in the
non-200 error message), or a raised exception. -/
inductive RequestResult where
  | response (status : Nat) (chunks : List Chunk) (bodyText : Str)
  | exn (e : PyExn)
  deriving DecidableEq

/-- Line 19: `f"⚠ API Error: {response.status_code} - {response.text}"`. -/
def apiErrorMsg (status : Nat) (bodyText : Str) : Str :=
  "⚠ API Error: ".toList ++ (toString status).toList ++ " - ".toList
    ++ bodyText

/-- Line 33. -/
def emptyRespMsg : Str :=
  "⚠ No response from model (check memory or prompt length).".toList

/-- Line 37. -/
def serverDownMsg : Str :=
  "❌ Ollama server not running. Please run `ollama serve` first.".toList

/-- Line 39: `f"⚠ Error: {e}"`. -/
def genericErrorMsg (m : Str) : Str := "⚠ Error: ".toList ++ m

/-- `ask_ollama` (lines 11–39) given the outcome of the HTTP call: non-200
status short-circuits to the API-error string; otherwise the `response`
fragments of the parseable chunks are accumulated in order, blank and
malformed lines being skipped; a blank total yields the empty-response
string.  A `ConnectionError` (which includes `ConnectTimeout`) yields the
server-down string, any other exception the generic error string. -/
def ask_ollama : RequestResult → Str
  | .response status chunks bodyText =>
    if status ≠ 200 then apiErrorMsg status bodyText
    else
      let text := chunks.foldl
        (fun acc c =>
          match c with
          | .blank => acc
          | .malformed => acc
          | .parsed o => acc ++ o.getD []) []
      if (trim text).isEmpty then emptyRespMsg else text
  | .exn e =>
    if e.isConnectionError then serverDownMsg else genericErrorMsg e.text

/-- Stated from the specification's words: the concatenation, in delivery
order, of the `response` fragments of all parseable chunks, skipping chunks
that fail to parse. -/
def specAssemble (chunks : List Chunk) : Str :=
  (chunks.filterMap
    (fun c =>
      match c with
      | .parsed (some s) => some s
      | _ => none)).flatten

/-- The knowledge-base invariant: every stored record carries a definite
boolean `beneficial` flag. -/
def kbWF (db : KB) : Prop := ∀ p ∈ db, p.2.beneficial.isSome = true

/-- The tokenization predicate of the specification's alternative reading:
a character is a separator when it is a comma or a newline. -/
def commaOrNewline (c : Char) : Bool := c == ',' || c == '\n'

/-! ### Dictionary lemmas -/

theorem dictGet?_cons (p : Str × IngredientRecord) (d : KB) (k : Str) :
    dictGet? (p :: d) k = if p.1 == k then some p.2 else dictGet? d k := by
  by_cases h : p.1 == k <;>
    simp [dictGet?, List.find?_cons_of_pos, List.find?_cons_of_neg, h]

theorem dictMem_cons (p : Str × IngredientRecord) (d : KB) (k : Str) :
    dictMem (p :: d) k = (p.1 == k || dictMem d k) := by
  simp [dictMem, List.any_cons]

theorem dictGet?_insert_self (d : KB) (k : Str) (v : IngredientRecord) :
    dictGet? (dictInsert d k v) k = some v := by
  induction d with
  | nil => simp [dictInsert, dictGet?_cons]
  | cons p rest ih =>
    by_cases h : p.1 == k
    · simp [dictInsert, h, dictGet?_cons]
    · simp [dictInsert, h, dictGet?_cons, ih]

theorem dictGet?_insert_ne (d : KB) (k k' : Str) (v : IngredientRecord)
    (h : k' ≠ k) : dictGet? (dictInsert d k v) k' = dictGet? d k' := by
  have hkk : (k == k') = false :=
    beq_eq_false_iff_ne.mpr (fun hk => h hk.symm)
  induction d with
  | nil => simp [dictInsert, dictGet?_cons, dictGet?, hkk]
  | cons p rest ih =>
    by_cases hp : p.1 == k
    · have hpk : p.1 = k := eq_of_beq hp
      simp [dictInsert, hp, dictGet?_cons, hpk, hkk]
    · simp [dictInsert, hp, dictGet?_cons, ih]

theorem dictKeys_insert (d : KB) (k : Str) (v : IngredientRecord) :
    (dictInsert d k v).map Prod.fst =
      if dictMem d k then d.map Prod.fst else d.map Prod.fst ++ [k] := by
  induction d with
  | nil => simp [dictInsert, dictMem]
  | cons p rest ih =>
    by_cases hp : p.1 == k
    · have hpk : p.1 = k := eq_of_beq hp
      simp [dictInsert, hp, dictMem_cons, hpk]
    · simp [dictInsert, hp, dictMem_cons, ih]
      by_cases hm : dictMem rest k <;> simp [hm]

theorem dictMem_iff_mem_keys (d : KB) (k : Str) :
    dictMem d k = true ↔ k ∈ d.map Prod.fst := by
  induction d with
  | nil => simp [dictMem]
  | cons p rest ih =>
    rw [dictMem_cons]
    simp only [List.map_cons, List.mem_cons, Bool.or_eq_true, ih]
    constructor
    · rintro (he | hm)
      · exact Or.inl (eq_of_beq he).symm
      · exact Or.inr hm
    · rintro (he | hm)
      · subst he; exact Or.inl (beq_self_eq_true _)
      · exact Or.inr hm

theorem dictMem_insert_self (d : KB) (k : Str) (v : IngredientRecord) :
    dictMem (dictInsert d k v) k = true := by
  rw [dictMem_iff_mem_keys, dictKeys_insert]
  by_cases hm : dictMem d k
  · rw [if_pos hm]
    exact (dictMem_iff_mem_keys d k).mp hm
  · rw [if_neg hm]
    exact List.mem_append_right _ (List.mem_singleton.mpr rfl)

theorem dictMem_insert_mono (d : KB) (k k' : Str) (v : IngredientRecord)
    (h : dictMem d k' = true) : dictMem (dictInsert d k v) k' = true := by
  rw [dictMem_iff_mem_keys, dictKeys_insert]
  rw [dictMem_iff_mem_keys] at h
  by_cases hm : dictMem d k <;> simp [hm, h]

theorem nodup_keys_insert (d : KB) (k : Str) (v : IngredientRecord)
    (h : (d.map Prod.fst).Nodup) : ((dictInsert d k v).map Prod.fst).Nodup := by
  rw [dictKeys_insert]
  by_cases hm : dictMem d k
  · simpa [hm] using h
  · have hk : k ∉ d.map Prod.fst := by
      intro hc
      exact hm ((dictMem_iff_mem_keys d k).mpr hc)
    simp [hm, List.nodup_append, h, hk]

theorem mem_dictInsert_cases (q : Str × IngredientRecord) (d : KB) (k : Str)
    (v : IngredientRecord) (h : q ∈ dictInsert d k v) : q ∈ d ∨ q = (k, v) := by
  induction d with
  | nil => simp [dictInsert] at h; right; exact h
  | cons p rest ih =>
    by_cases hp : p.1 == k
    · simp [dictInsert, hp] at h
      rcases h with h | h
      · right; exact h
      · left; exact List.mem_cons_of_mem _ h
    · simp [dictInsert, hp] at h
      rcases h with h | h
      · left; exact h ▸ List.mem_cons_self _ _
      · rcases ih h with h' | h'
        · left; exact List.mem_cons_of_mem _ h'
        · right; exact h'

theorem mem_of_dictGet?_eq_some (d : KB) (k : Str) (r : IngredientRecord)
    (h : dictGet? d k = some r) : ∃ p ∈ d, p.2 = r := by
  unfold dictGet? at h
  rcases ho : d.find? (fun p => p.1 == k) with _ | p
  · rw [ho] at h; simp at h
  · rw [ho] at h
    simp at h
    exact ⟨p, List.mem_of_find?_eq_some ho, h⟩

/-! ### Lemmas about the resolution loop -/

theorem analyzeGo_append (oracle : Nat → Str → Str) (db : KB) :
    ∀ (cs cs' : List Str) (res : KB) (n : Nat),
      analyzeGo oracle db (cs ++ cs') res n =
        analyzeGo oracle db cs' (analyzeGo oracle db cs res n).1
          (analyzeGo oracle db cs res n).2 := by
  intro cs
  induction cs with
  | nil => intro cs' res n; rfl
  | cons ing rest ih =>
    intro cs' res n
    cases h : dictGet? db (lower ing) with
    | none => simp only [List.cons_append, analyzeGo, h]; exact ih ..
    | some r => simp only [List.cons_append, analyzeGo, h]; exact ih ..

theorem analyzeGo_counter (oracle : Nat → Str → Str) (db : KB) :
    ∀ (cs : List Str) (res : KB) (n : Nat),
      (analyzeGo oracle db cs res n).2 = n + missCount db cs := by
  intro cs
  induction cs with
  | nil => intro res n; simp [analyzeGo, missCount]
  | cons ing rest ih =>
    intro res n
    cases h : dictGet? db (lower ing) with
    | none =>
      simp only [analyzeGo, h, ih, missCount, List.filter_cons]
      simp [h]
      omega
    | some r =>
      simp only [analyzeGo, h, ih, missCount, List.filter_cons]
      simp [h]

theorem analyzeGo_get_not_mem (oracle : Nat → Str → Str) (db : KB)
    (cand : Str) :
    ∀ (cs : List Str) (res : KB) (n : Nat), cand ∉ cs →
      dictGet? (analyzeGo oracle db cs res n).1 cand = dictGet? res cand := by
  intro cs
  induction cs with
  | nil => intro res n _; rfl
  | cons ing rest ih =>
    intro res n hnm
    have hne : cand ≠ ing := fun he => hnm (he ▸ List.mem_cons_self _ _)
    have hnr : cand ∉ rest := fun hm => hnm (List.mem_cons_of_mem _ hm)
    cases h : dictGet? db (lower ing) with
    | none =>
      simp only [analyzeGo, h, ih _ _ hnr, dictGet?_insert_ne _ _ _ _ hne]
    | some r =>
      simp only [analyzeGo, h, ih _ _ hnr, dictGet?_insert_ne _ _ _ _ hne]

theorem analyzeGo_get_hit (oracle : Nat → Str → Str) (db : KB) (cand : Str)
    (r : IngredientRecord) (hr : dictGet? db (lower cand) = some r) :
    ∀ (cs : List Str) (res : KB) (n : Nat), cand ∈ cs →
      dictGet? (analyzeGo oracle db cs res n).1 cand = some r := by
  intro cs
  induction cs with
  | nil => intro res n hm; cases hm
  | cons ing rest ih =>
    intro res n hm
    by_cases hmr : cand ∈ rest
    · cases h : dictGet? db (lower ing) with
      | none => simp only [analyzeGo, h]; exact ih _ _ hmr
      | some r' => simp only [analyzeGo, h]; exact ih _ _ hmr
    · have he : cand = ing := by
        rcases List.mem_cons.mp hm with h' | h'
        · exact h'
        · exact absurd h' hmr
      subst he
      simp only [analyzeGo, hr]
      rw [analyzeGo_get_not_mem oracle db cand rest _ _ hmr]
      exact dictGet?_insert_self ..

theorem analyzeGo_get_miss (oracle : Nat → Str → Str) (db : KB) (cand : Str)
    (hr : dictGet? db (lower cand) = none) :
    ∀ (cs : List Str) (res : KB) (n : Nat), cand ∈ cs →
      ∃ m, dictGet? (analyzeGo oracle db cs res n).1 cand
        = some (fallbackRecord (oracle m (mkPrompt cand))) := by
  intro cs
  induction cs with
  | nil => intro res n hm; cases hm
  | cons ing rest ih =>
    intro res n hm
    by_cases hmr : cand ∈ rest
    · cases h : dictGet? db (lower ing) with
      | none => simp only [analyzeGo, h]; exact ih _ _ hmr
      | some r' => simp only [analyzeGo, h]; exact ih _ _ hmr
    · have he : cand = ing := by
        rcases List.mem_cons.mp hm with h' | h'
        · exact h'
        · exact absurd h' hmr
      subst he
      refine ⟨n, ?_⟩
      simp only [analyzeGo, hr]
      rw [analyzeGo_get_not_mem oracle db cand rest _ _ hmr]
      exact dictGet?_insert_self ..

theorem analyzeGo_mem_mono (oracle : Nat → Str → Str) (db : KB) (c : Str) :
    ∀ (cs : List Str) (res : KB) (n : Nat), dictMem res c = true →
      dictMem (analyzeGo oracle db cs res n).1 c = true := by
  intro cs
  induction cs with
  | nil => intro res n h; exact h
  | cons ing rest ih =>
    intro res n h
    cases hg : dictGet? db (lower ing) with
    | none => simp only [analyzeGo, hg]; exact ih _ _ (dictMem_insert_mono _ _ _ _ h)
    | some r => simp only [analyzeGo, hg]; exact ih _ _ (dictMem_insert_mono _ _ _ _ h)

theorem analyzeGo_mem (oracle : Nat → Str → Str) (db : KB) (c : Str) :
    ∀ (cs : List Str) (res : KB) (n : Nat), c ∈ cs →
      dictMem (analyzeGo oracle db cs res n).1 c = true := by
  intro cs
  induction cs with
  | nil => intro res n hm; cases hm
  | cons ing rest ih =>
    intro res n hm
    by_cases hmr : c ∈ rest
    · cases hg : dictGet? db (lower ing) with
      | none => simp only [analyzeGo, hg]; exact ih _ _ hmr
      | some r => simp only [analyzeGo, hg]; exact ih _ _ hmr
    · have he : c = ing := by
        rcases List.mem_cons.mp hm with h' | h'
        · exact h'
        · exact absurd h' hmr
      subst he
      cases hg : dictGet? db (lower c) with
      | none =>
        simp only [analyzeGo, hg]
        exact analyzeGo_mem_mono oracle db c rest _ _ (dictMem_insert_self ..)
      | some r =>
        simp only [analyzeGo, hg]
        exact analyzeGo_mem_mono oracle db c rest _ _ (dictMem_insert_self ..)

theorem analyzeGo_nodup_keys (oracle : Nat → Str → Str) (db : KB) :
    ∀ (cs : List Str) (res : KB) (n : Nat), (res.map Prod.fst).Nodup →
      ((analyzeGo oracle db cs res n).1.map Prod.fst).Nodup := by
  intro cs
  induction cs with
  | nil => intro res n h; exact h
  | cons ing rest ih =>
    intro res n h
    cases hg : dictGet? db (lower ing) with
    | none => simp only [analyzeGo, hg]; exact ih _ _ (nodup_keys_insert _ _ _ h)
    | some r => simp only [analyzeGo, hg]; exact ih _ _ (nodup_keys_insert _ _ _ h)

theorem analyzeGo_start_irrelevant (oracle : Nat → Str → Str)
    (det : ∀ i j p, oracle i p = oracle j p) (db : KB) :
    ∀ (cs : List Str) (res : KB) (n n' : Nat),
      (analyzeGo oracle db cs res n).1 = (analyzeGo oracle db cs res n').1 := by
  intro cs
  induction cs with
  | nil => intro res n n'; rfl
  | cons ing rest ih =>
    intro res n n'
    cases hg : dictGet? db (lower ing) with
    | none =>
      have hde : oracle n (mkPrompt ing) = oracle n' (mkPrompt ing) :=
        det n n' _
      simp only [analyzeGo, hg, hde]
      exact ih ..
    | some r =>
      simp only [analyzeGo, hg]
      exact ih ..

/-! ### Lemmas about the loader -/

theorem load_ingredients_wf_aux :
    ∀ (rows : List CsvRow) (acc : KB),
      (∀ p ∈ acc, p.2.beneficial.isSome = true) →
      ∀ p ∈ rows.foldl
        (fun db row =>
          dictInsert db (lower (trim row.ingredient)) (rowRecord row)) acc,
        p.2.beneficial.isSome = true := by
  intro rows
  induction rows with
  | nil => intro acc h p hp; exact h p hp
  | cons row rest ih =>
    intro acc h p hp
    simp only [List.foldl_cons] at hp
    refine ih _ ?_ p hp
    intro q hq
    rcases mem_dictInsert_cases q acc _ _ hq with h' | h'
    · exact h q h'
    · rw [h']
      rfl

/-! ### Lemmas about splitting and trimming -/

theorem splitOnChar_ne_nil (sep : Char) : ∀ s : Str, splitOnChar sep s ≠ [] := by
  intro s
  induction s with
  | nil => simp [splitOnChar]
  | cons c cs ih =>
    rw [splitOnChar]
    cases h : splitOnChar sep cs with
    | nil => simp
    | cons t ts => by_cases hc : c = sep <;> simp [hc]

theorem splitPred_ne_nil (p : Char → Bool) : ∀ s : Str, splitPred p s ≠ [] := by
  intro s
  induction s with
  | nil => simp [splitPred]
  | cons c cs ih =>
    rw [splitPred]
    cases h : splitPred p cs with
    | nil => simp
    | cons t ts => by_cases hc : p c <;> simp [hc]

theorem splitOnChar_cons_eq (sep a : Char) (as : Str) (t0 : Str)
    (ts : List Str) (h : splitOnChar sep as = t0 :: ts) :
    splitOnChar sep (a :: as)
      = if a = sep then [] :: t0 :: ts else (a :: t0) :: ts := by
  rw [splitOnChar, h]

theorem splitPred_cons_eq (p : Char → Bool) (a : Char) (as : Str) (t0 : Str)
    (ts : List Str) (h : splitPred p as = t0 :: ts) :
    splitPred p (a :: as)
      = if p a then [] :: t0 :: ts else (a :: t0) :: ts := by
  rw [splitPred, h]

theorem mem_splitOnChar (sep : Char) :
    ∀ (s t : Str), t ∈ splitOnChar sep s → ∀ c ∈ t, c ∈ s ∧ c ≠ sep := by
  intro s
  induction s with
  | nil =>
    intro t ht c hc
    simp [splitOnChar] at ht
    subst ht
    cases hc
  | cons a as ih =>
    intro t ht c hc
    cases h : splitOnChar sep as with
    | nil => exact absurd h (splitOnChar_ne_nil sep as)
    | cons t0 ts =>
      rw [splitOnChar_cons_eq sep a as t0 ts h] at ht
      by_cases ha : a = sep
      · rw [if_pos ha] at ht
        rcases List.mem_cons.mp ht with he | hm
        · subst he; cases hc
        · have hm' : t ∈ splitOnChar sep as := by rw [h]; exact hm
          have := ih t hm' c hc
          exact ⟨List.mem_cons_of_mem _ this.1, this.2⟩
      · rw [if_neg ha] at ht
        rcases List.mem_cons.mp ht with he | hm
        · subst he
          rcases List.mem_cons.mp hc with hce | hcm
          · subst hce; exact ⟨List.mem_cons_self _ _, ha⟩
          · have ht0 : t0 ∈ splitOnChar sep as := by
              rw [h]; exact List.mem_cons_self _ _
            have := ih t0 ht0 c hcm
            exact ⟨List.mem_cons_of_mem _ this.1, this.2⟩
        · have hm' : t ∈ splitOnChar sep as := by
            rw [h]; exact List.mem_cons_of_mem _ hm
          have := ih t hm' c hc
          exact ⟨List.mem_cons_of_mem _ this.1, this.2⟩

theorem dropWhile_idem (p : Char → Bool) :
    ∀ l : Str, (l.dropWhile p).dropWhile p = l.dropWhile p := by
  intro l
  induction l with
  | nil => rfl
  | cons c cs ih =>
    by_cases h : p c
    · simp [List.dropWhile_cons, h, ih]
    · simp [List.dropWhile_cons, h]

theorem dropWhile_head_false (p : Char → Bool) :
    ∀ (l : Str) (x : Char) (r : Str), l.dropWhile p = x :: r → p x = false := by
  intro l
  induction l with
  | nil => intro x r h; cases h
  | cons c cs ih =>
    intro x r h
    by_cases hc : p c
    · rw [List.dropWhile_cons, if_pos hc] at h
      exact ih x r h
    · rw [List.dropWhile_cons, if_neg hc] at h
      cases h
      simpa using hc

theorem trim_idem (s : Str) : trim (trim s) = trim s := by
  have ht2 : (trim s).reverse.dropWhile Char.isWhitespace = (trim s).reverse := by
    unfold trim
    rw [List.reverse_reverse]
    exact dropWhile_idem _ _
  have ht1 : (trim s).dropWhile Char.isWhitespace = trim s := by
    cases hts : trim s with
    | nil => simp
    | cons x r =>
      have hpre : trim s <+: s.dropWhile Char.isWhitespace := by
        unfold trim
        have hs := List.reverse_prefix.mpr
          (List.dropWhile_suffix (l := (s.dropWhile Char.isWhitespace).reverse)
            Char.isWhitespace)
        simpa using hs
      rw [hts] at hpre
      rcases hpre with ⟨tail, htail⟩
      have hd : s.dropWhile Char.isWhitespace = x :: (r ++ tail) := by
        rw [← htail, List.cons_append]
      have hx : Char.isWhitespace x = false :=
        dropWhile_head_false Char.isWhitespace s x (r ++ tail) hd
      rw [List.dropWhile_cons, if_neg (by simp [hx])]
  calc trim (trim s)
      = (((trim s).dropWhile Char.isWhitespace).reverse.dropWhile
          Char.isWhitespace).reverse := rfl
    _ = ((trim s).reverse.dropWhile Char.isWhitespace).reverse := by rw [ht1]
    _ = (trim s).reverse.reverse := by rw [ht2]
    _ = trim s := List.reverse_reverse _

theorem trim_eq_nil_of_all_ws (s : Str)
    (h : ∀ c ∈ s, c.isWhitespace = true) : trim s = [] := by
  have h1 : s.dropWhile Char.isWhitespace = [] :=
    List.dropWhile_eq_nil_iff.mpr h
  simp [trim, h1]

theorem tokens_are_trimmed (s : Str) : ∀ c ∈ tokenize s, trim c = c := by
  intro c hc
  have hm : c ∈ ((splitOnChar ',' (s.map newlineToComma)).map trim) :=
    List.mem_of_mem_filter hc
  rcases List.mem_map.mp hm with ⟨piece, _, he⟩
  rw [← he]
  exact trim_idem piece

theorem tokenize_eq_nil_of_blank (input : Str)
    (h : ∀ c ∈ input, c.isWhitespace = true ∨ c = ',') :
    tokenize input = [] := by
  unfold tokenize
  rw [List.filter_eq_nil_iff]
  intro t ht
  rcases List.mem_map.mp ht with ⟨piece, hpiece, rfl⟩
  have hp : ∀ c ∈ piece, c.isWhitespace = true := by
    intro c hc
    have hmem := mem_splitOnChar ',' _ piece hpiece c hc
    rcases List.mem_map.mp hmem.1 with ⟨c0, hc0, he⟩
    rcases h c0 hc0 with hws | hcm
    · by_cases hn : c0 = '\n'
      · exfalso
        apply hmem.2
        rw [← he]
        simp [newlineToComma, hn]
      · rw [← he]
        simpa [newlineToComma, hn] using hws
    · exfalso
      apply hmem.2
      rw [← he, hcm]
      simp [newlineToComma]
  simp [trim_eq_nil_of_all_ws piece hp]

theorem splitOnChar_map_newlineToComma :
    ∀ s : Str,
      splitOnChar ',' (s.map newlineToComma) = splitPred commaOrNewline s := by
  intro s
  induction s with
  | nil => rfl
  | cons c cs ih =>
    rw [List.map_cons, splitOnChar, splitPred, ih]
    cases h : splitPred commaOrNewline cs with
    | nil => exact absurd h (splitPred_ne_nil _ cs)
    | cons t ts =>
      by_cases hcn : commaOrNewline c = true
      · have hor : c = ',' ∨ c = '\n' := by
          simpa [commaOrNewline] using hcn
        have hc : newlineToComma c = ',' := by
          rcases hor with h' | h' <;> simp [newlineToComma, h']
        simp [hc, hcn]
      · have h1 : ¬(c = ',') ∧ ¬(c = '\n') := by
          simpa [commaOrNewline] using hcn
        have hc : newlineToComma c = c := by simp [newlineToComma, h1.2]
        rw [hc]
        simp [hcn, h1.1]

/-! ### Lemmas about chunk assembly and entry search -/

theorem foldl_chunks_eq_specAssemble :
    ∀ (chunks : List Chunk) (acc : Str),
      chunks.foldl
        (fun acc c =>
          match c with
          | .blank => acc
          | .malformed => acc
          | .parsed o => acc ++ o.getD []) acc
        = acc ++ specAssemble chunks := by
  intro chunks
  induction chunks with
  | nil => intro acc; simp [specAssemble]
  | cons c cs ih =>
    intro acc
    cases c with
    | blank => simp [List.foldl_cons, specAssemble, List.filterMap_cons, ih]
    | malformed => simp [List.foldl_cons, specAssemble, List.filterMap_cons, ih]
    | parsed o =>
      cases o with
      | none =>
        simp [List.foldl_cons, specAssemble, List.filterMap_cons, ih]
      | some frag =>
        simp [List.foldl_cons, specAssemble, List.filterMap_cons, ih]

theorem find?_first_entry (pred : Str × IngredientRecord → Bool) :
    ∀ (d₁ : KB) (k : Str) (v : IngredientRecord) (d₂ : KB),
      (∀ p ∈ d₁, pred p = false) → pred (k, v) = true →
      (d₁ ++ (k, v) :: d₂).find? pred = some (k, v) := by
  intro d₁
  induction d₁ with
  | nil =>
    intro k v d₂ _ hk
    simpa using List.find?_cons_of_pos d₂ hk
  | cons q rest ih =>
    intro k v d₂ hall hk
    have hq : pred q = false := hall q (List.mem_cons_self _ _)
    rw [List.cons_append, List.find?_cons_of_neg _ (by simp [hq])]
    exact ih k v d₂ (fun p hp => hall p (List.mem_cons_of_mem _ hp)) hk

theorem count_eq_one_of_nodup_mem :
    ∀ (l : List Str) (a : Str), l.Nodup → a ∈ l → l.count a = 1 := by
  intro l
  induction l with
  | nil => intro a _ hm; cases hm
  | cons x xs ih =>
    intro a hnd hm
    have hx : x ∉ xs := (List.nodup_cons.mp hnd).1
    have hxs : xs.Nodup := (List.nodup_cons.mp hnd).2
    rcases List.mem_cons.mp hm with he | hmm
    · subst he
      rw [List.count_cons_self]
      have h0 : xs.count a = 0 := List.count_eq_zero.mpr hx
      rw [h0]
    · have hne : a ≠ x := fun he => hx (he ▸ hmm)
      rw [List.count_cons_of_ne hne]
      exact ih a hxs hmm

theorem append_ne_nil_left (a b : Str) (h : a ≠ []) : a ++ b ≠ [] := by
  cases a with
  | nil => exact absurd rfl h
  | cons x xs => simp

theorem ask_ollama_success_eq (chunks : List Chunk) (bodyText : Str) :
    ask_ollama (.response 200 chunks bodyText)
      = if (trim (specAssemble chunks)).isEmpty then emptyRespMsg
        else specAssemble chunks := by
  have hf := foldl_chunks_eq_specAssemble chunks []
  rw [List.nil_append] at hf
  simp [ask_ollama, hf]

/-! ### Claim theorems -/

/-- C3: for every raw input, `resolve` tokenizes by replacing newlines with
commas, splitting on commas, trimming each piece and discarding empty
pieces, preserving input order — equivalently, the candidates are the
trimmed non-empty pieces obtained by splitting at every comma or newline —
and on the input `"Water, Glycerin\nParabens"` it yields exactly
`["Water","Glycerin","Parabens"]` in that order. -/
theorem tokenize_rule_and_example :
    (∀ s : Str,
      tokenize s
        = ((splitPred commaOrNewline s).map trim).filter (fun t => !t.isEmpty))
    ∧ tokenize "Water, Glycerin\nParabens".toList
        = ["Water".toList, "Glycerin".toList, "Parabens".toList] := by
  constructor
  · intro s
    unfold tokenize
    rw [splitOnChar_map_newlineToComma]
  · decide

/-- C10: an input consisting only of whitespace and comma characters (note
newlines are whitespace) produces no candidates, so `resolve` returns the
empty result and performs no oracle call (the call counter stays `0`). -/
theorem resolve_blank_input (oracle : Nat → Str → Str) (input : Str) (db : KB)
    (h : ∀ c ∈ input, c.isWhitespace = true ∨ c = ',') :
    tokenize input = [] ∧ analyze_ingredients oracle input db = []
      ∧ (analyzeGo oracle db (tokenize input) [] 0).2 = 0 := by
  have ht := tokenize_eq_nil_of_blank input h
  refine ⟨ht, ?_, ?_⟩
  · unfold analyze_ingredients
    rw [ht]
    rfl
  · rw [ht]
    rfl

theorem resolve_blank_input_witness :
    tokenize " ,\n , ".toList = []
      ∧ analyze_ingredients (fun _ p => p) " ,\n , ".toList [] = []
      ∧ (analyzeGo (fun _ p => p) [] (tokenize " ,\n , ".toList) [] 0).2 = 0 :=
  resolve_blank_input (fun _ p => p) " ,\n , ".toList [] (by decide)

/-- C9: with a deterministic oracle (the answer depends only on the prompt,
not on the call number), resolving the same text a second time against the
same knowledge base — the second run starting at the oracle-call counter
where the first run ended — produces the identical result. -/
theorem resolve_idempotent (oracle : Nat → Str → Str)
    (det : ∀ i j p, oracle i p = oracle j p) (t : Str) (db : KB) :
    (analyzeGo oracle db (tokenize t) []
        (analyzeGo oracle db (tokenize t) [] 0).2).1
      = analyze_ingredients oracle t db := by
  unfold analyze_ingredients
  exact analyzeGo_start_irrelevant oracle det db (tokenize t) [] _ 0

theorem resolve_idempotent_witness :
    (analyzeGo (fun _ p => p) [] (tokenize "Water, Parabens".toList) []
        (analyzeGo (fun _ p => p) [] (tokenize "Water, Parabens".toList)
          [] 0).2).1
      = analyze_ingredients (fun _ p => p) "Water, Parabens".toList [] :=
  resolve_idempotent (fun _ p => p) (fun _ _ _ => rfl)
    "Water, Parabens".toList []

/-- C8, counterexample: a read timeout (`requests.exceptions.ReadTimeout` is
not a subclass of `ConnectionError`) is reported through the generic
`"⚠ Error: ..."` string, not through the ServiceUnavailable-class
`"❌ Ollama server not running..."` string, so a timeout is not always
surfaced as a ServiceUnavailable-class failure. -/
theorem read_timeout_not_service_unavailable :
    ask_ollama (.exn (.readTimeout "Read timed out.".toList))
        = genericErrorMsg "Read timed out.".toList
      ∧ ask_ollama (.exn (.readTimeout "Read timed out.".toList))
        ≠ serverDownMsg := by
  constructor
  · rfl
  · decide

/-- C8, amended: a timeout in the connection phase (`ConnectTimeout`, which
is a `ConnectionError` subclass) is surfaced as the ServiceUnavailable-class
message, while a timeout after connection (`ReadTimeout`) is surfaced as the
generic error string — a different failure kind; in both cases a
user-readable string is returned. -/
theorem timeout_failure_classes (m : Str) :
    ask_ollama (.exn (.connectTimeout m)) = serverDownMsg
      ∧ ask_ollama (.exn (.readTimeout m)) = genericErrorMsg m :=
  ⟨rfl, rfl⟩

/-- C1: if every candidate of the input is present in the knowledge base
(under its trimmed, lower-cased form — candidates are already trimmed by
tokenization, witnessed by `trim cand = cand`), then for each candidate the
result maps the original candidate string to exactly the stored record,
whose `beneficial` flag is a definite boolean, never unknown. -/
theorem resolve_known_matches_kb (oracle : Nat → Str → Str) (input : Str)
    (db : KB) (hwf : kbWF db)
    (hall : ∀ c ∈ tokenize input, (dictGet? db (lower c)).isSome = true) :
    ∀ cand ∈ tokenize input, ∃ r : IngredientRecord,
      dictGet? db (lower cand) = some r
        ∧ dictGet? (analyze_ingredients oracle input db) cand = some r
        ∧ r.beneficial.isSome = true
        ∧ trim cand = cand := by
  intro cand hcand
  have hs := hall cand hcand
  rcases ho : dictGet? db (lower cand) with _ | r
  · rw [ho] at hs
    cases hs
  · refine ⟨r, rfl, ?_, ?_, tokens_are_trimmed input cand hcand⟩
    · unfold analyze_ingredients
      exact analyzeGo_get_hit oracle db cand r ho (tokenize input) [] 0 hcand
    · rcases mem_of_dictGet?_eq_some db (lower cand) r ho with ⟨p, hp, he⟩
      rw [← he]
      exact hwf p hp

theorem resolve_known_matches_kb_witness :
    ∃ r : IngredientRecord,
      dictGet? [("water".toList,
          { beneficial := some true, description := "wet".toList,
            alternatives := [] })] (lower "Water".toList) = some r
        ∧ dictGet? (analyze_ingredients (fun _ p => p) " Water ".toList
            [("water".toList,
              { beneficial := some true, description := "wet".toList,
                alternatives := [] })]) "Water".toList = some r
        ∧ r.beneficial.isSome = true
        ∧ trim "Water".toList = "Water".toList :=
  resolve_known_matches_kb (fun _ p => p) " Water ".toList
    [("water".toList,
      { beneficial := some true, description := "wet".toList,
        alternatives := [] })] (by unfold kbWF; decide) (by decide)
    "Water".toList (by decide)

/-- C2: every record loaded into the knowledge base carries a definite
boolean `beneficial` flag (the CSV loader always stores the result of a
boolean comparison), and every record produced by the fallback path has
`beneficial` unknown (`none`), `alternatives = []`, and as description the
text returned by the oracle for the synthesized prompt. -/
theorem kb_records_boolean_and_fallback_unknown :
    (∀ (rows : List CsvRow) (k : Str) (r : IngredientRecord),
        dictGet? (load_ingredients rows) k = some r →
          r.beneficial.isSome = true)
    ∧ (∀ (oracle : Nat → Str → Str) (input : Str) (db : KB) (cand : Str),
        cand ∈ tokenize input → dictGet? db (lower cand) = none →
          ∃ m, dictGet? (analyze_ingredients oracle input db) cand
            = some { beneficial := none,
                     description := oracle m (mkPrompt cand),
                     alternatives := [] }) := by
  constructor
  · intro rows k r h
    rcases mem_of_dictGet?_eq_some _ _ _ h with ⟨p, hp, he⟩
    rw [← he]
    exact load_ingredients_wf_aux rows []
      (by intro q hq; cases hq) p hp
  · intro oracle input db cand hc hmiss
    unfold analyze_ingredients
    have hm := analyzeGo_get_miss oracle db cand hmiss (tokenize input) [] 0 hc
    simpa [fallbackRecord] using hm

theorem kb_records_boolean_and_fallback_unknown_witness :
    (({ beneficial := some true, description := "wet".toList,
        alternatives := [] } : IngredientRecord).beneficial.isSome = true)
    ∧ ∃ m, dictGet? (analyze_ingredients (fun n _ => (toString n).toList)
        "Parabens".toList []) "Parabens".toList
        = some { beneficial := none,
                 description := (fun (n : Nat) (_ : Str) =>
                   (toString n).toList) m (mkPrompt "Parabens".toList),
                 alternatives := [] } :=
  ⟨kb_records_boolean_and_fallback_unknown.1
      [⟨"Water".toList, "true".toList, "wet".toList, []⟩] "water".toList
      { beneficial := some true, description := "wet".toList,
        alternatives := [] } (by decide),
   kb_records_boolean_and_fallback_unknown.2 (fun n _ => (toString n).toList)
      "Parabens".toList [] "Parabens".toList (by decide) rfl⟩

/-- C5: when the same surface-form candidate occurs more than once (here:
its last occurrence, after prefix `cs`, with no later occurrence in `cs'`)
and it misses the knowledge base, the result holds exactly one entry for
that key and its record is the one built at the last occurrence — the
oracle call whose index is the number of misses before it; and every
candidate of the input, in particular distinct surface forms of the same
normalized name, appears as its own key of the result. -/
theorem resolve_duplicate_last_wins (oracle : Nat → Str → Str) (input : Str)
    (db : KB) (cs cs' : List Str) (cand : Str)
    (hsplit : tokenize input = cs ++ cand :: cs')
    (hlast : cand ∉ cs')
    (hmiss : dictGet? db (lower cand) = none) :
    dictGet? (analyze_ingredients oracle input db) cand
      = some (fallbackRecord (oracle (missCount db cs) (mkPrompt cand)))
    ∧ ((analyze_ingredients oracle input db).map Prod.fst).count cand = 1
    ∧ ∀ c ∈ tokenize input,
        c ∈ (analyze_ingredients oracle input db).map Prod.fst := by
  unfold analyze_ingredients
  rw [hsplit]
  refine ⟨?_, ?_, ?_⟩
  · rw [analyzeGo_append]
    have hn1 : (analyzeGo oracle db cs [] 0).2 = missCount db cs := by
      rw [analyzeGo_counter]
      omega
    simp only [analyzeGo, hmiss]
    rw [analyzeGo_get_not_mem oracle db cand cs' _ _ hlast,
      dictGet?_insert_self, hn1]
  · have hnod := analyzeGo_nodup_keys oracle db (cs ++ cand :: cs') [] 0
      (by simp)
    have hmem := analyzeGo_mem oracle db cand (cs ++ cand :: cs') [] 0
      (by simp)
    exact count_eq_one_of_nodup_mem _ _ hnod
      ((dictMem_iff_mem_keys _ _).mp hmem)
  · intro c hcmem
    exact (dictMem_iff_mem_keys _ _).mp
      (analyzeGo_mem oracle db c _ [] 0 hcmem)

theorem resolve_duplicate_last_wins_witness :
    dictGet? (analyze_ingredients (fun n _ => (toString n).toList)
        "Water, Water".toList []) "Water".toList
      = some (fallbackRecord ((fun (n : Nat) (_ : Str) =>
          (toString n).toList) (missCount [] ["Water".toList])
          (mkPrompt "Water".toList)))
    ∧ ((analyze_ingredients (fun n _ => (toString n).toList)
        "Water, Water".toList []).map Prod.fst).count "Water".toList = 1
    ∧ ∀ c ∈ tokenize "Water, Water".toList,
        c ∈ (analyze_ingredients (fun n _ => (toString n).toList)
          "Water, Water".toList []).map Prod.fst :=
  resolve_duplicate_last_wins (fun n _ => (toString n).toList)
    "Water, Water".toList [] ["Water".toList] [] "Water".toList
    (by decide) (by decide) rfl

/-- C4: `answer` picks the first knowledge-base entry, in stored iteration
order, whose key occurs as a substring of the lower-cased question and
returns the formatted answer for it; when no key is a substring it forwards
the raw, unmodified question to the oracle and returns the oracle's string
verbatim. -/
theorem chatbot_first_match_or_fallback (oracle : Str → Str) (q : Str)
    (db : KB) :
    ((∀ p ∈ db, isSubstring p.1 (lower q) = false) →
        chatbot_answer oracle q db = oracle q)
    ∧ (∀ (d₁ : KB) (k : Str) (v : IngredientRecord) (d₂ : KB),
        db = d₁ ++ (k, v) :: d₂ →
        (∀ p ∈ d₁, isSubstring p.1 (lower q) = false) →
        isSubstring k (lower q) = true →
        chatbot_answer oracle q db = formatAnswer k v) := by
  constructor
  · intro hall
    unfold chatbot_answer
    rw [List.find?_eq_none.mpr (fun p hp => by simp [hall p hp])]
  · intro d₁ k v d₂ hdb hfirst hk
    unfold chatbot_answer
    rw [hdb, find?_first_entry _ d₁ k v d₂ (fun p hp => hfirst p hp) hk]

theorem chatbot_first_match_or_fallback_witness :
    chatbot_answer (fun s => s) "is glycerin safe".toList
        [("glycerin".toList,
          { beneficial := some true, description := "a humectant".toList,
            alternatives := [] })]
      = formatAnswer "glycerin".toList
          { beneficial := some true, description := "a humectant".toList,
            alternatives := [] }
    ∧ chatbot_answer (fun s => s) "hello".toList
        [("glycerin".toList,
          { beneficial := some true, description := "a humectant".toList,
            alternatives := [] })]
      = "hello".toList :=
  ⟨(chatbot_first_match_or_fallback (fun s => s) "is glycerin safe".toList
      _).2 [] "glycerin".toList _ [] rfl (by intro p hp; cases hp)
      (by decide),
   (chatbot_first_match_or_fallback (fun s => s) "hello".toList _).1
      (by decide)⟩

/-- C6: on a successful (status 200) response, the oracle returns the
concatenation, in delivery order, of the `response` fragments of all
parseable chunks — blank and unparseable chunks are skipped without failing
the request — and it resolves to the empty-response failure string exactly
when that total concatenated text is empty or blank. -/
theorem oracle_assembles_chunks (chunks : List Chunk) (bodyText : Str) :
    ask_ollama (.response 200 chunks bodyText)
      = if (trim (specAssemble chunks)).isEmpty then emptyRespMsg
        else specAssemble chunks :=
  ask_ollama_success_eq chunks bodyText

/-- C7: every oracle failure is surfaced as a fixed, non-empty, readable
string — the server-down string or the generic error string for an
exception, the API-error string for a non-success status — a success never
returns the empty string either, and `resolve` produces an entry for every
candidate of the input whatever the oracle answers, so one candidate's
fallback failure never aborts the processing of the others. -/
theorem oracle_failures_degrade_gracefully :
    (∀ e : PyExn, ask_ollama (.exn e) = serverDownMsg
        ∨ ask_ollama (.exn e) = genericErrorMsg e.text)
    ∧ (∀ e : PyExn, ask_ollama (.exn e) ≠ [])
    ∧ (∀ (status : Nat) (chunks : List Chunk) (bodyText : Str),
        status ≠ 200 →
          ask_ollama (.response status chunks bodyText)
            = apiErrorMsg status bodyText)
    ∧ (∀ (status : Nat) (chunks : List Chunk) (bodyText : Str),
        ask_ollama (.response status chunks bodyText) ≠ [])
    ∧ (∀ (oracle : Nat → Str → Str) (input : Str) (db : KB) (c : Str),
        c ∈ tokenize input →
          dictMem (analyze_ingredients oracle input db) c = true) := by
  refine ⟨?_, ?_, ?_, ?_, ?_⟩
  · intro e
    cases e with
    | connectionError m => exact Or.inl rfl
    | connectTimeout m => exact Or.inl rfl
    | readTimeout m => exact Or.inr rfl
    | otherExc m => exact Or.inr rfl
  · intro e
    cases e with
    | connectionError m => exact (by decide : serverDownMsg ≠ [])
    | connectTimeout m => exact (by decide : serverDownMsg ≠ [])
    | readTimeout m =>
      exact append_ne_nil_left "⚠ Error: ".toList m (by decide)
    | otherExc m =>
      exact append_ne_nil_left "⚠ Error: ".toList m (by decide)
  · intro status chunks bodyText h
    simp [ask_ollama, h]
  · intro status chunks bodyText
    by_cases hst : status = 200
    · subst hst
      rw [ask_ollama_success_eq]
      by_cases he : (trim (specAssemble chunks)).isEmpty
      · rw [if_pos he]
        decide
      · rw [if_neg he]
        intro hnil
        apply he
        rw [hnil]
        rfl
    · have h := hst
      simp only [ask_ollama, if_pos h]
      exact append_ne_nil_left "⚠ API Error: ".toList _ (by decide)
  · intro oracle input db c hc
    exact analyzeGo_mem oracle db c (tokenize input) [] 0 hc

theorem oracle_failures_degrade_gracefully_witness :
    (ask_ollama (.exn (.connectionError "refused".toList)) = serverDownMsg
        ∨ ask_ollama (.exn (.connectionError "refused".toList))
          = genericErrorMsg (PyExn.connectionError "refused".toList).text)
    ∧ ask_ollama (.exn (.otherExc "oom".toList)) ≠ []
    ∧ ask_ollama (.response 500 [] "boom".toList)
        = apiErrorMsg 500 "boom".toList
    ∧ ask_ollama (.response 200 [] []) ≠ []
    ∧ dictMem (analyze_ingredients (fun _ p => p) "Water".toList [])
        "Water".toList = true :=
  ⟨oracle_failures_degrade_gracefully.1 _,
   oracle_failures_degrade_gracefully.2.1 _,
   oracle_failures_degrade_gracefully.2.2.1 500 [] "boom".toList (by decide),
   oracle_failures_degrade_gracefully.2.2.2.1 200 [] [],
   oracle_failures_degrade_gracefully.2.2.2.2 (fun _ p => p)
     "Water".toList [] "Water".toList (by decide)⟩
